import Mathlib

/-!
Verification of the OCR PII-redaction pipeline (`try.py`).

The development shallowly embeds the core functions of the source:
`build_full_text`, `detect_pii`, `build_pii_token_set` and `redact_image`.
Python strings are modelled over their character lists (the inputs of
interest are ASCII); Python regular expressions are embedded as
deterministic scanners derived from the concrete patterns of the source
(each pattern is analysed below; none requires more backtracking than the
scanner performs); images are lists of pixel rows; a confidence entry is
modelled by the result of the source's `float(...)` parse, `none` standing
for the `ValueError` branch.
-/

/-- Python whitespace for `str.strip` and the regex class `\s`:
space, tab, newline, carriage return, vertical tab, form feed. -/
def isPySpace (c : Char) : Bool :=
  c = ' ' || c = '\t' || c = '\n' || c = '\r' || c = Char.ofNat 11 || c = Char.ofNat 12

/-- The regex class `\w` (ASCII fragment): letters, digits, underscore. -/
def isWordChar (c : Char) : Bool :=
  c.isAlpha || c.isDigit || c = '_'

/-- Python `str.strip()`: drop leading and trailing whitespace. -/
def pyStrip (s : String) : String :=
  String.mk (((s.toList.dropWhile isPySpace).reverse.dropWhile isPySpace).reverse)

/-- Python `str.lower()` (ASCII): lower-case every character. -/
def pyLower (s : String) : String :=
  String.mk (s.toList.map Char.toLower)

/-- Python `str.upper()` (ASCII): upper-case every character. -/
def pyUpper (s : String) : String :=
  String.mk (s.toList.map Char.toUpper)

/-- Python `sep.join(list)`: the elements with `sep` between consecutive ones. -/
def pyJoin (sep : String) : List String → String
  | [] => ""
  | [w] => w
  | w :: ws => w ++ sep ++ pyJoin sep ws

/-- `build_full_text` (try.py:69-71): join the words whose stripped text is
non-empty with single spaces, in order. -/
def build_full_text (texts : List String) : String :=
  pyJoin " " (texts.filter fun w => pyStrip w != "")

/-- `re.sub(r"\W+", "", word).lower()` (try.py:163): remove every non-word
character, then lower-case. -/
def cleanWord (s : String) : String :=
  String.mk ((s.toList.filter isWordChar).map Char.toLower)

/-- Accumulator of `wordRuns`: `acc` is the current run of word
characters, reversed; a non-word character (or the end) flushes it. -/
def wordRunsAux : List Char → List Char → List String
  | [], acc => if acc.isEmpty then [] else [String.mk acc.reverse]
  | c :: cs, acc =>
    if isWordChar c then wordRunsAux cs (c :: acc)
    else if acc.isEmpty then wordRunsAux cs []
    else String.mk acc.reverse :: wordRunsAux cs []

/-- `re.findall(r"\w+", v)`: the maximal runs of word characters of `v`. -/
def wordRuns (cs : List Char) : List String :=
  wordRunsAux cs []

/-- `build_pii_token_set` (try.py:129-139): collect into a set the
lower-cased word-character runs of every matched value of every category.
The Python `set` is modelled as a duplicate-free list built with
`List.insert`; only membership in it is ever consulted. -/
def build_pii_token_set (pii : List (String × List String)) : List String :=
  pii.foldl
    (fun acc kv =>
      kv.2.foldl
        (fun acc2 v =>
          (wordRuns v.toList).foldl (fun acc3 t => acc3.insert (pyLower t)) acc2)
        acc)
    []

/-- One pixel of a BGR image buffer. -/
abbrev Pixel := Nat × Nat × Nat

/-- The fill colour `(0, 0, 0)` of the redaction rectangles. -/
def blackPixel : Pixel := (0, 0, 0)

/-- An image buffer: a list of rows of pixels. -/
abbrev Image := List (List Pixel)

/-- The bounding box of one OCR word: `left`, `top`, `width`, `height`
as produced by the OCR collaborator. -/
structure Box where
  left : Nat
  top : Nat
  width : Nat
  height : Nat
deriving DecidableEq, Repr

/-- One OCR word record: its text, the numeric parse of its confidence
entry (`none` when `float(conf)` raises `ValueError`, try.py:155-158),
and its bounding box.  The source keeps parallel arrays indexed by `i`;
the spec's invariant that index `i` describes one word across all arrays
justifies bundling them. -/
structure Word where
  text : String
  conf : Option Int
  box : Box
deriving DecidableEq, Repr

/-- The confidence actually compared against the threshold: the parsed
number, or `-1` on the `ValueError` branch (try.py:157-158). -/
def confValue (w : Word) : Int :=
  match w.conf with
  | some v => v
  | none => -1

/-- Membership of the pixel `(x, y)` in the rectangle drawn by
`cv2.rectangle(img, (l, t), (l+w, t+h), (0,0,0), -1)` (try.py:174): a
filled rectangle whose opposite corners `(l, t)` and `(l+w, t+h)` are both
included, clipped to the image. -/
def inFill (b : Box) (x y : Nat) : Bool :=
  b.left ≤ x && x ≤ b.left + b.width && b.top ≤ y && y ≤ b.top + b.height

/-- Fill one row of pixels, `x0` being the column of its first pixel. -/
def fillRow (b : Box) (y : Nat) : Nat → List Pixel → List Pixel
  | _, [] => []
  | x0, p :: ps => (if inFill b x0 y then blackPixel else p) :: fillRow b y (x0 + 1) ps

/-- Fill the rows of the image from row index `y0` down. -/
def fillRows (b : Box) : Nat → Image → Image
  | _, [] => []
  | y0, r :: rs => fillRow b y0 0 r :: fillRows b (y0 + 1) rs

/-- The in-place `cv2.rectangle(..., thickness = -1)` call, as a function
from the buffer before the call to the buffer after it. -/
def fillRect (img : Image) (b : Box) : Image :=
  fillRows b 0 img

/-- The body of the redaction loop (try.py:149-174) for one word, with the
confidence threshold `t` a parameter (the source fixes `t = 40`,
try.py:160): skip the word when its stripped text is empty, when its
confidence is below the threshold, or when its cleaned text is empty;
otherwise fill its box exactly when the cleaned text is in the token set. -/
def redactStepAt (t : Int) (tokens : List String) (img : Image) (w : Word) : Image :=
  if pyStrip w.text = "" then img
  else if confValue w < t then img
  else if cleanWord w.text = "" then img
  else if cleanWord w.text ∈ tokens then fillRect img w.box
  else img

/-- The loop body with the source's threshold of `40`. -/
def redactStep (tokens : List String) (img : Image) (w : Word) : Image :=
  redactStepAt 40 tokens img w

/-- `redact_image` (try.py:142-176): start from a copy of the original
buffer (`np.ndarray.copy`, try.py:146 — on values, the image itself) and
run the loop body over the word records in order. -/
def redact_image (img : Image) (words : List Word) (tokens : List String) : Image :=
  words.foldl (redactStep tokens) img

/-- The word-qualification test of the loop, as a single Boolean:
stripped text non-empty, confidence at least `t`, cleaned text non-empty
and a member of the token set. -/
def qualifiesAt (t : Int) (tokens : List String) (w : Word) : Bool :=
  decide (pyStrip w.text ≠ "") && decide (t ≤ confValue w)
    && decide (cleanWord w.text ≠ "") && decide (cleanWord w.text ∈ tokens)

/-- Qualification at the source's fixed threshold `40`. -/
def qualifies (tokens : List String) (w : Word) : Bool :=
  qualifiesAt 40 tokens w

/-- The indices of the words whose boxes the loop fills, at threshold `t`. -/
def redactedIdx (t : Int) (tokens : List String) (words : List Word) : List Nat :=
  (words.enum.filter fun iw => qualifiesAt t tokens iw.2).map Prod.fst

/-!
Embedding of the `re.findall` calls of `detect_pii` (try.py:74-126).

A matcher takes the character immediately before the current position
(`none` at the start of the text; the patterns with `\b` need it) and the
remaining characters, and returns, on a match starting exactly there, the
captured group (the whole match for the group-free patterns), the last
character the match consumed, and the remaining characters after the
match.  `re.findall` scans left to right, resuming after each
non-overlapping match and advancing one character on failure; every
pattern of the source consumes at least one character.

Each pattern of the source is deterministic in the following sense: every
greedy `\s*` is followed by atoms whose character classes are disjoint
from `\s` (except in `patient_name`, whose capture class contains `\s`
and whose single backtracking case is handled explicitly below), each
optional atom `\.?`/`[:\-]?` can never steal a character the continuation
needs, and each bounded repetition `\d{m,n}` followed by a non-digit atom
or `\b` must consume a maximal digit run of length in `[m, n]`.  The
scanners below implement exactly these resolved semantics.
-/

/-- Case-insensitive literal match: consume the characters of the first
list, comparing lower-cased, and return the rest (models a literal inside
a pattern compiled with `re.IGNORECASE`). -/
def litCI : List Char → List Char → Option (List Char)
  | [], cs => some cs
  | _ :: _, [] => none
  | l :: ls, c :: cs => if c.toLower = l.toLower then litCI ls cs else none

/-- Case-sensitive literal match (a literal in a pattern with no flags). -/
def litCS : List Char → List Char → Option (List Char)
  | [], cs => some cs
  | _ :: _, [] => none
  | l :: ls, c :: cs => if c = l then litCS ls cs else none

/-- The optional single-character atom `X?`: consume the head when it is
in the class, otherwise consume nothing. -/
def optChar (p : Char → Bool) : List Char → List Char
  | [] => []
  | c :: cs => if p c then cs else c :: cs

/-- The separator class `[:\-]`. -/
def isColonDash (c : Char) : Bool := c = ':' || c = '-'

/-- True when a match may start or end here for `\b`: at a text edge or
next to a non-word character. -/
def boundaryOk : Option Char → Bool
  | none => true
  | some c => !isWordChar c

/-- A matcher result: captured group, last consumed character, rest. -/
abbrev MatchRes := String × Char × List Char

/-- `Patient\s*Name[:\-]?\s*([A-Za-z\s]+)` with `re.IGNORECASE`
(try.py:82-84).  After the label and the optional separator, the greedy
`\s*` takes the whitespace run `ws`; the capture takes the following
maximal run of letters/whitespace; when that run is empty the engine
backtracks `\s*` by one character and the capture is the last whitespace
character of `ws` (failing when `ws` is empty too). -/
def pnMatchAt (_ : Option Char) (cs : List Char) : Option MatchRes :=
  match litCI "Patient".toList cs with
  | none => none
  | some cs1 =>
    match litCI "Name".toList (cs1.dropWhile isPySpace) with
    | none => none
    | some cs3 =>
      let cs4 := optChar isColonDash cs3
      let ws := cs4.takeWhile isPySpace
      let cs5 := cs4.dropWhile isPySpace
      let grp := cs5.takeWhile fun c => c.isAlpha || isPySpace c
      if grp ≠ [] then
        some (String.mk grp, grp.getLastD ' ', cs5.dropWhile fun c => c.isAlpha || isPySpace c)
      else if ws ≠ [] then
        some (String.mk [ws.getLastD ' '], ws.getLastD ' ', cs5)
      else
        none

/-- The capture class `[A-Za-z0-9/]` of the ID rules. -/
def isIdChar (c : Char) : Bool := c.isAlpha || c.isDigit || c = '/'

/-- `LABEL\s*No\.?\s*[:\-]?\s*([A-Za-z0-9/]+)` with `re.IGNORECASE`:
the shared shape of the `ipd_no` (try.py:88-90, label `IPD`) and `uhid`
(try.py:94-96, label `UHID`) rules. -/
def idMatchAt (label : String) (_ : Option Char) (cs : List Char) : Option MatchRes :=
  match litCI label.toList cs with
  | none => none
  | some cs1 =>
    match litCI "No".toList (cs1.dropWhile isPySpace) with
    | none => none
    | some cs3 =>
      let cs4 := optChar (fun c => c = '.') cs3
      let cs5 := optChar isColonDash (cs4.dropWhile isPySpace)
      let cs6 := cs5.dropWhile isPySpace
      let grp := cs6.takeWhile isIdChar
      if grp = [] then none
      else some (String.mk grp, grp.getLastD ' ', cs6.dropWhile isIdChar)

/-- `Age\s*[:\-]?\s*(\d{1,3})` with `re.IGNORECASE` (try.py:100): the
greedy bounded capture takes at most three digits of the digit run. -/
def ageMatchAt (_ : Option Char) (cs : List Char) : Option MatchRes :=
  match litCI "Age".toList cs with
  | none => none
  | some cs1 =>
    let cs2 := optChar isColonDash (cs1.dropWhile isPySpace)
    let cs3 := cs2.dropWhile isPySpace
    let ds := cs3.takeWhile Char.isDigit
    if ds = [] then none
    else
      let grp := ds.take 3
      some (String.mk grp, grp.getLastD ' ', cs3.drop grp.length)

/-- The capture class `[MFmf]` of the sex rule. -/
def isSexLetter (c : Char) : Bool := c = 'M' || c = 'F' || c = 'm' || c = 'f'

/-- `Sex\s*[:\-]?\s*([MFmf])` with NO flags (try.py:104): the label `Sex`
is matched case-sensitively, only the captured letter may have either
case. -/
def sexMatchAt (_ : Option Char) (cs : List Char) : Option MatchRes :=
  match litCS "Sex".toList cs with
  | none => none
  | some cs1 =>
    match (optChar isColonDash (cs1.dropWhile isPySpace)).dropWhile isPySpace with
    | [] => none
    | c :: rest => if isSexLetter c then some (String.mk [c], c, rest) else none

/-- The dates pattern (try.py:109-112): `\b`, one or two digits, a slash
or dash, one or two digits, a slash or dash, two to four digits, `\b`;
no groups, so `re.findall` returns the whole match.  Each `\d{1,2}` must
consume a maximal digit run of length 1-2 (a longer run leaves a digit
where the separator must be, and backtracking cannot help); the final
`\d{2,4}` must consume a maximal run of length 2-4 followed by a word
boundary. -/
def dateMatchAt (prev : Option Char) (cs : List Char) : Option MatchRes :=
  if !boundaryOk prev then none
  else
    let d1 := cs.takeWhile Char.isDigit
    if d1.length = 0 || 2 < d1.length then none
    else
      match cs.drop d1.length with
      | [] => none
      | s1 :: cs2 =>
        if !(s1 = '/' || s1 = '-') then none
        else
          let d2 := cs2.takeWhile Char.isDigit
          if d2.length = 0 || 2 < d2.length then none
          else
            match cs2.drop d2.length with
            | [] => none
            | s2 :: cs3 =>
              if !(s2 = '/' || s2 = '-') then none
              else
                let d3 := cs3.takeWhile Char.isDigit
                if d3.length < 2 || 4 < d3.length then none
                else
                  let rest := cs3.drop d3.length
                  if !boundaryOk rest.head? then none
                  else
                    some (String.mk (d1 ++ [s1] ++ d2 ++ [s2] ++ d3),
                      d3.getLastD ' ', rest)

/-- `\b\d{6,}\b` (try.py:117): a maximal digit run of length at least 6,
delimited by word boundaries on both sides. -/
def longNumMatchAt (prev : Option Char) (cs : List Char) : Option MatchRes :=
  if !boundaryOk prev then none
  else
    let d := cs.takeWhile Char.isDigit
    if d.length < 6 then none
    else
      let rest := cs.drop d.length
      if !boundaryOk rest.head? then none
      else some (String.mk d, d.getLastD ' ', rest)

/-- `\b\d{10}\b` (try.py:122): a maximal digit run of length exactly 10,
delimited by word boundaries on both sides. -/
def phoneMatchAt (prev : Option Char) (cs : List Char) : Option MatchRes :=
  if !boundaryOk prev then none
  else
    let d := cs.takeWhile Char.isDigit
    if d.length ≠ 10 then none
    else
      let rest := cs.drop d.length
      if !boundaryOk rest.head? then none
      else some (String.mk d, d.getLastD ' ', rest)

/-- The `re.findall` scan loop: try the matcher at each position, emit the
captured group and resume after the match, otherwise advance one
character.  `fuel` bounds the recursion; every call site supplies more
fuel than there are characters, and every matcher consumes at least one
character, so the fuel never runs out. -/
def reScan (matchAt : Option Char → List Char → Option MatchRes) :
    Nat → Option Char → List Char → List String
  | 0, _, _ => []
  | _ + 1, _, [] => []
  | fuel + 1, prev, c :: cs =>
    match matchAt prev (c :: cs) with
    | some (g, lastC, rest) => g :: reScan matchAt fuel (some lastC) rest
    | none => reScan matchAt fuel (some c) cs

/-- `re.findall(pattern, s)` for one of the matchers above. -/
def reFindall (matchAt : Option Char → List Char → Option MatchRes) (s : String) :
    List String :=
  reScan matchAt (s.toList.length + 1) none s.toList

/-- The raw matches of the `patient_name` rule (try.py:82-84). -/
def rawPatientName (t : String) : List String := reFindall pnMatchAt t

/-- The raw matches of the `ipd_no` rule (try.py:88-90). -/
def rawIpd (t : String) : List String := reFindall (idMatchAt "IPD") t

/-- The raw matches of the `uhid` rule (try.py:94-96). -/
def rawUhid (t : String) : List String := reFindall (idMatchAt "UHID") t

/-- The raw matches of the `age` rule (try.py:100). -/
def rawAge (t : String) : List String := reFindall ageMatchAt t

/-- The raw matches of the `sex` rule (try.py:104). -/
def rawSex (t : String) : List String := reFindall sexMatchAt t

/-- The raw matches of the `dates` rule (try.py:109-112). -/
def rawDates (t : String) : List String := reFindall dateMatchAt t

/-- The raw matches of the `long_numbers` rule (try.py:117). -/
def rawLongNumbers (t : String) : List String := reFindall longNumMatchAt t

/-- The raw matches of the `phone` rule (try.py:122). -/
def rawPhone (t : String) : List String := reFindall phoneMatchAt t

/-- One conditional insertion `if matches: pii[key] = stored` of
`detect_pii`: the entry is added exactly when the raw match list is
non-empty, and it stores `stored` (the per-category transform of the raw
list). -/
def entry (key : String) (raw stored : List String) : List (String × List String) :=
  if raw = [] then [] else [(key, stored)]

/-- `detect_pii` (try.py:74-126) as the association list of its result
dictionary, in insertion order.  `patient_name` stores the stripped
matches (try.py:86), `sex` the upper-cased ones (try.py:106); `dates`,
`long_numbers` and `phone` store `list(set(...))` (try.py:114, 119, 124),
modelled by `List.dedup` (the Python set iteration order is unspecified;
only multiplicity and membership are specified).  The `setdefault` at
try.py:119 is a plain insertion, since the key cannot be present yet. -/
def detect_pii (text : String) : List (String × List String) :=
  entry "patient_name" (rawPatientName text) ((rawPatientName text).map pyStrip) ++
  entry "ipd_no" (rawIpd text) (rawIpd text) ++
  entry "uhid" (rawUhid text) (rawUhid text) ++
  entry "age" (rawAge text) (rawAge text) ++
  entry "sex" (rawSex text) ((rawSex text).map pyUpper) ++
  entry "dates" (rawDates text) ((rawDates text).dedup) ++
  entry "long_numbers" (rawLongNumbers text) ((rawLongNumbers text).dedup) ++
  entry "phone" (rawPhone text) ((rawPhone text).dedup)

/-- Pixel access: row `y`, column `x`. -/
def px (img : Image) (x y : Nat) : Option Pixel :=
  (img[y]?).bind fun row => row[x]?

/-- The row-length profile of an image: its list of row widths (whose
length is the number of rows). -/
def dims (img : Image) : List Nat :=
  img.map List.length

/-- The mutable state of `redact_image` (try.py:142-176): the original
buffer, the word-record arrays, and the output buffer being drawn on. -/
structure RState where
  origBuf : Image
  wordSeq : List Word
  redBuf : Image

/-- `np.ndarray.copy` (try.py:146): a fresh buffer with the same
contents; on buffer contents it is the identity, the freshness being
modelled by the separate `redBuf` field of the state. -/
def copyImage (img : Image) : Image := img

/-- The redaction loop as a transformer of the full state: it starts from
a copy of the original and only ever writes the output buffer. -/
def redactTrace (img : Image) (words : List Word) (tokens : List String) : RState :=
  words.foldl (fun s w => { s with redBuf := redactStep tokens s.redBuf w })
    ⟨img, words, copyImage img⟩

/-- Modelled from the spec of the Text Assembler (its own words): take
every word whose trimmed text is non-empty, join them with a single
space, in original sequence order.  Used only to be compared with
`build_full_text`. -/
def assembleSpec : List String → String
  | [] => ""
  | w :: ws =>
    if pyStrip w = "" then assembleSpec ws
    else if ws.all fun u => pyStrip u == "" then w
    else w ++ " " ++ assembleSpec ws

/-! Helper lemmas. -/

theorem qualifiesAt_iff (t : Int) (tokens : List String) (w : Word) :
    qualifiesAt t tokens w = true ↔
      pyStrip w.text ≠ "" ∧ t ≤ confValue w ∧ cleanWord w.text ≠ ""
        ∧ cleanWord w.text ∈ tokens := by
  simp [qualifiesAt, and_assoc]

theorem redactStepAt_eq (t : Int) (tokens : List String) (img : Image) (w : Word) :
    redactStepAt t tokens img w =
      if qualifiesAt t tokens w then fillRect img w.box else img := by
  unfold redactStepAt
  by_cases h1 : pyStrip w.text = ""
  · simp [h1, qualifiesAt_iff]
  by_cases h2 : confValue w < t
  · have h2n : ¬ t ≤ confValue w := by omega
    simp [h1, h2, qualifiesAt_iff, h2n]
  by_cases h3 : cleanWord w.text = ""
  · simp [h1, h2, h3, qualifiesAt_iff]
  by_cases h4 : cleanWord w.text ∈ tokens
  · have h2y : t ≤ confValue w := by omega
    simp [h1, h2, h3, h4, qualifiesAt_iff, h2y]
  · simp [h1, h2, h3, h4, qualifiesAt_iff]

theorem redactStep_eq (tokens : List String) (img : Image) (w : Word) :
    redactStep tokens img w =
      if qualifies tokens w then fillRect img w.box else img :=
  redactStepAt_eq 40 tokens img w

theorem redact_image_eq_filter (tokens : List String) :
    ∀ (words : List Word) (img : Image),
      redact_image img words tokens =
        (words.filter fun w => qualifies tokens w).foldl
          (fun im w => fillRect im w.box) img := by
  intro words
  induction words with
  | nil => intro img; rfl
  | cons w ws ih =>
    intro img
    by_cases h : qualifies tokens w
    · simp only [redact_image, List.foldl_cons, List.filter_cons, h, if_pos]
      have step : redactStep tokens img w = fillRect img w.box := by
        rw [redactStep_eq, if_pos h]
      rw [step]
      exact ih (fillRect img w.box)
    · simp only [redact_image, List.foldl_cons, List.filter_cons, h, Bool.false_eq_true,
        if_neg, ite_false]
      have step : redactStep tokens img w = img := by
        rw [redactStep_eq, if_neg (by simp [h])]
      rw [step]
      exact ih img

theorem fillRow_length (b : Box) (y : Nat) :
    ∀ (row : List Pixel) (x0 : Nat), (fillRow b y x0 row).length = row.length := by
  intro row
  induction row with
  | nil => intro x0; rfl
  | cons p ps ih => intro x0; simp [fillRow, ih]

theorem fillRows_dims (b : Box) :
    ∀ (img : Image) (y0 : Nat), dims (fillRows b y0 img) = dims img := by
  intro img
  induction img with
  | nil => intro y0; rfl
  | cons r rs ih => intro y0; simp [fillRows, dims, fillRow_length] at ih ⊢; exact ih (y0 + 1)

theorem fillRect_dims (img : Image) (b : Box) : dims (fillRect img b) = dims img :=
  fillRows_dims b img 0

theorem redactStep_dims (tokens : List String) (img : Image) (w : Word) :
    dims (redactStep tokens img w) = dims img := by
  rw [redactStep_eq]
  by_cases h : qualifies tokens w
  · rw [if_pos h, fillRect_dims]
  · rw [if_neg (by simp [h])]

theorem redact_image_dims (tokens : List String) :
    ∀ (words : List Word) (img : Image),
      dims (redact_image img words tokens) = dims img := by
  intro words
  induction words with
  | nil => intro img; rfl
  | cons w ws ih =>
    intro img
    simp only [redact_image, List.foldl_cons]
    calc dims (List.foldl (redactStep tokens) (redactStep tokens img w) ws)
        = dims (redactStep tokens img w) := ih (redactStep tokens img w)
      _ = dims img := redactStep_dims tokens img w

theorem fillRow_getElem (b : Box) (y : Nat) :
    ∀ (row : List Pixel) (x0 i : Nat),
      (fillRow b y x0 row)[i]? =
        (row[i]?).map fun p => if inFill b (x0 + i) y then blackPixel else p := by
  intro row
  induction row with
  | nil => intro x0 i; simp [fillRow]
  | cons p ps ih =>
    intro x0 i
    cases i with
    | zero => simp [fillRow]
    | succ n =>
      simp only [fillRow, List.getElem?_cons_succ]
      rw [ih (x0 + 1) n]
      have harith : x0 + 1 + n = x0 + (n + 1) := by omega
      rw [harith]

theorem fillRows_getElem (b : Box) :
    ∀ (img : Image) (y0 y : Nat),
      (fillRows b y0 img)[y]? = (img[y]?).map fun row => fillRow b (y0 + y) 0 row := by
  intro img
  induction img with
  | nil => intro y0 y; simp [fillRows]
  | cons r rs ih =>
    intro y0 y
    cases y with
    | zero => simp [fillRows]
    | succ n =>
      simp only [fillRows, List.getElem?_cons_succ]
      rw [ih (y0 + 1) n]
      have harith : y0 + 1 + n = y0 + (n + 1) := by omega
      rw [harith]

theorem px_fillRect (img : Image) (b : Box) (x y : Nat) :
    px (fillRect img b) x y =
      (px img x y).map fun p => if inFill b x y then blackPixel else p := by
  unfold px fillRect
  rw [fillRows_getElem]
  cases himg : img[y]? with
  | none => simp
  | some row =>
    simp [fillRow_getElem]

theorem px_fillRect_outside (img : Image) (b : Box) (x y : Nat)
    (h : inFill b x y = false) : px (fillRect img b) x y = px img x y := by
  rw [px_fillRect, h]
  cases px img x y <;> simp

theorem qualifiesAt_mono (t1 t2 : Int) (tokens : List String) (w : Word)
    (hle : t1 ≤ t2) (h : qualifiesAt t2 tokens w = true) :
    qualifiesAt t1 tokens w = true := by
  rw [qualifiesAt_iff] at h ⊢
  exact ⟨h.1, le_trans hle h.2.1, h.2.2⟩

theorem mem_entry_iff (p : String × List String) (k : String) (raw stored : List String) :
    p ∈ entry k raw stored ↔ raw ≠ [] ∧ p = (k, stored) := by
  unfold entry
  split <;> simp_all

theorem fst_mem_entry_iff (k1 k : String) (raw stored : List String) :
    k1 ∈ (entry k raw stored).map Prod.fst ↔ raw ≠ [] ∧ k1 = k := by
  unfold entry
  split <;> simp_all

theorem exists_mem_entry_iff (k key : String) (raw stored : List String) :
    (∃ x, (k, x) ∈ entry key raw stored) ↔ raw ≠ [] ∧ k = key := by
  unfold entry
  split <;> simp_all

theorem reScan_mem (m : Option Char → List Char → Option MatchRes) :
    ∀ (fuel : Nat) (prev : Option Char) (cs : List Char) (g : String),
      g ∈ reScan m fuel prev cs →
        ∃ p c lc r, m p c = some (g, lc, r) := by
  intro fuel
  induction fuel with
  | zero => intro prev cs g h; simp [reScan] at h
  | succ n ih =>
    intro prev cs g h
    cases cs with
    | nil => simp [reScan] at h
    | cons c cs =>
      rw [reScan] at h
      cases hm : m prev (c :: cs) with
      | none =>
        rw [hm] at h
        exact ih (some c) cs g h
      | some res =>
        obtain ⟨g0, lc, rest⟩ := res
        rw [hm] at h
        rcases List.mem_cons.mp h with hg | hg
        · exact ⟨prev, c :: cs, lc, rest, hg ▸ hm⟩
        · exact ih (some lc) rest g hg

theorem sexMatchAt_shape (prev : Option Char) (cs : List Char) (g : String)
    (lc : Char) (rest : List Char) (h : sexMatchAt prev cs = some (g, lc, rest)) :
    g = "M" ∨ g = "F" ∨ g = "m" ∨ g = "f" := by
  unfold sexMatchAt at h
  split at h
  · exact absurd h (by simp)
  · split at h
    · exact absurd h (by simp)
    · rename_i cs1 hl c rest2 hd
      split at h
      · rename_i hc
        have hg : g = String.mk [c] := by
          have := (Option.some.injEq _ _).mp h
          exact (congrArg Prod.fst this).symm
        have hcases : c = 'M' ∨ c = 'F' ∨ c = 'm' ∨ c = 'f' := by
          simp [isSexLetter] at hc
          tauto
        rcases hcases with rfl | rfl | rfl | rfl
        · exact Or.inl hg
        · exact Or.inr (Or.inl hg)
        · exact Or.inr (Or.inr (Or.inl hg))
        · exact Or.inr (Or.inr (Or.inr hg))
      · exact absurd h (by simp)

theorem rawSex_mem (text : String) (g : String) (h : g ∈ rawSex text) :
    g = "M" ∨ g = "F" ∨ g = "m" ∨ g = "f" := by
  obtain ⟨p, c, lc, r, hm⟩ := reScan_mem sexMatchAt _ _ _ _ h
  exact sexMatchAt_shape p c g lc r hm

theorem redactTrace_fold (tokens : List String) :
    ∀ (ws : List Word) (s : RState),
      (ws.foldl (fun s2 w => { s2 with redBuf := redactStep tokens s2.redBuf w }) s).origBuf
          = s.origBuf
      ∧ (ws.foldl (fun s2 w => { s2 with redBuf := redactStep tokens s2.redBuf w }) s).wordSeq
          = s.wordSeq
      ∧ (ws.foldl (fun s2 w => { s2 with redBuf := redactStep tokens s2.redBuf w }) s).redBuf
          = ws.foldl (redactStep tokens) s.redBuf := by
  intro ws
  induction ws with
  | nil => intro s; exact ⟨rfl, rfl, rfl⟩
  | cons w ws ih =>
    intro s
    simpa using ih { s with redBuf := redactStep tokens s.redBuf w }

theorem redact_image_empty_tokens :
    ∀ (words : List Word) (img : Image), redact_image img words [] = img := by
  intro words
  induction words with
  | nil => intro img; rfl
  | cons w ws ih =>
    intro img
    have hq : qualifies [] w = false := by
      simp [qualifies, qualifiesAt]
    have hstep : redactStep [] img w = img := by
      rw [redactStep_eq, hq]
      simp
    simp only [redact_image, List.foldl_cons, hstep]
    exact ih img

/-- Claim C1: the redaction loop fills exactly the boxes of the words for
which all three conditions hold: non-empty stripped text, parsed
confidence at least 40 (an unparseable confidence becomes -1 and fails),
and non-empty cleaned lower-cased text that is a member of the token
set. -/
theorem claim_C1_redaction_iff (tokens : List String) (words : List Word) (img : Image) :
    redact_image img words tokens
        = (words.filter fun w => qualifies tokens w).foldl
            (fun im w => fillRect im w.box) img
    ∧ (∀ w : Word, qualifies tokens w = true ↔
        (pyStrip w.text ≠ "" ∧ 40 ≤ confValue w ∧ cleanWord w.text ≠ ""
          ∧ cleanWord w.text ∈ tokens))
    ∧ (∀ w : Word, w.conf = none → confValue w = -1 ∧ qualifies tokens w = false) := by
  refine ⟨redact_image_eq_filter tokens words img,
    fun w => qualifiesAt_iff 40 tokens w, ?_⟩
  intro w hw
  have hcv : confValue w = -1 := by simp [confValue, hw]
  refine ⟨hcv, ?_⟩
  simp [qualifies, qualifiesAt, hcv]

theorem claim_C1_witness :
    confValue ⟨"Bob", none, ⟨0, 0, 2, 1⟩⟩ = -1
      ∧ qualifies ["bob"] ⟨"Bob", none, ⟨0, 0, 2, 1⟩⟩ = false :=
  (claim_C1_redaction_iff ["bob"] [] []).2.2 ⟨"Bob", none, ⟨0, 0, 2, 1⟩⟩ rfl

/-- Claim C7: redaction is monotone in the confidence threshold: with the
token set and word sequence fixed, every word index redacted under a
higher threshold is also redacted under a lower one. -/
theorem claim_C7_threshold_mono (t1 t2 : Int) (tokens : List String) (words : List Word)
    (h : t1 ≤ t2) :
    ∀ i ∈ redactedIdx t2 tokens words, i ∈ redactedIdx t1 tokens words := by
  intro i hi
  unfold redactedIdx at hi ⊢
  simp only [List.mem_map, List.mem_filter] at hi ⊢
  obtain ⟨⟨j, w⟩, ⟨hmem, hq⟩, hfst⟩ := hi
  exact ⟨⟨j, w⟩, ⟨hmem, qualifiesAt_mono t1 t2 tokens w h hq⟩, hfst⟩

theorem claim_C7_witness :
    0 ∈ redactedIdx 10 ["john"] [⟨"John", some 55, ⟨1, 1, 2, 2⟩⟩] :=
  claim_C7_threshold_mono 10 40 ["john"] [⟨"John", some 55, ⟨1, 1, 2, 2⟩⟩]
    (by decide) 0 (by decide)

/-- Claim C8: the redactor never writes the original buffer or the word
sequence — the loop state keeps them unchanged while only the output
buffer (initialised from a copy of the original) is drawn on — and the
output image has the same dimensions as the original. -/
theorem claim_C8_no_mutation (img : Image) (words : List Word) (tokens : List String) :
    (redactTrace img words tokens).origBuf = img
    ∧ (redactTrace img words tokens).wordSeq = words
    ∧ (redactTrace img words tokens).redBuf = redact_image img words tokens
    ∧ dims (redact_image img words tokens) = dims img := by
  have h := redactTrace_fold tokens words ⟨img, words, copyImage img⟩
  exact ⟨h.1, h.2.1, h.2.2, redact_image_dims tokens words img⟩

/-- Claim C9: every pixel outside the union of the filled rectangles of
the qualifying words is unchanged by the redactor. -/
theorem claim_C9_frame (img : Image) (words : List Word) (tokens : List String)
    (x y : Nat)
    (h : ∀ w ∈ words, qualifies tokens w = true → inFill w.box x y = false) :
    px (redact_image img words tokens) x y = px img x y := by
  have main : ∀ (ws : List Word) (im : Image),
      (∀ w ∈ ws, qualifies tokens w = true → inFill w.box x y = false) →
      px (redact_image im ws tokens) x y = px im x y := by
    intro ws
    induction ws with
    | nil => intro im _; rfl
    | cons w ws ih =>
      intro im hh
      have hstep : px (redactStep tokens im w) x y = px im x y := by
        rw [redactStep_eq]
        by_cases hq : qualifies tokens w = true
        · rw [if_pos hq]
          exact px_fillRect_outside im w.box x y (hh w (List.mem_cons_self w ws) hq)
        · rw [if_neg (by simp [hq])]
      have htail : ∀ u ∈ ws, qualifies tokens u = true → inFill u.box x y = false :=
        fun u hu => hh u (List.mem_cons_of_mem w hu)
      simp only [redact_image, List.foldl_cons]
      calc px (ws.foldl (redactStep tokens) (redactStep tokens im w)) x y
          = px (redactStep tokens im w) x y := ih (redactStep tokens im w) htail
        _ = px im x y := hstep
  exact main words img h

theorem claim_C9_witness :
    px (redact_image [[(1, 1, 1), (2, 2, 2)], [(3, 3, 3), (4, 4, 4)]]
          [⟨"John", some 80, ⟨0, 0, 0, 0⟩⟩] ["john"]) 1 1
      = px [[(1, 1, 1), (2, 2, 2)], [(3, 3, 3), (4, 4, 4)]] 1 1 :=
  claim_C9_frame [[(1, 1, 1), (2, 2, 2)], [(3, 3, 3), (4, 4, 4)]]
    [⟨"John", some 80, ⟨0, 0, 0, 0⟩⟩] ["john"] 1 1 (by decide)

/-- Claim C3: a category key is present in the detection result iff that
rule's match list is non-empty, and no key is ever present with an empty
list of values. -/
theorem claim_C3_presence_iff (text : String) :
    (∀ k vs, (k, vs) ∈ detect_pii text → vs ≠ [])
    ∧ ("patient_name" ∈ (detect_pii text).map Prod.fst ↔ rawPatientName text ≠ [])
    ∧ ("ipd_no" ∈ (detect_pii text).map Prod.fst ↔ rawIpd text ≠ [])
    ∧ ("uhid" ∈ (detect_pii text).map Prod.fst ↔ rawUhid text ≠ [])
    ∧ ("age" ∈ (detect_pii text).map Prod.fst ↔ rawAge text ≠ [])
    ∧ ("sex" ∈ (detect_pii text).map Prod.fst ↔ rawSex text ≠ [])
    ∧ ("dates" ∈ (detect_pii text).map Prod.fst ↔ rawDates text ≠ [])
    ∧ ("long_numbers" ∈ (detect_pii text).map Prod.fst ↔ rawLongNumbers text ≠ [])
    ∧ ("phone" ∈ (detect_pii text).map Prod.fst ↔ rawPhone text ≠ []) := by
  constructor
  · intro k vs h
    simp only [detect_pii, List.mem_append, mem_entry_iff, Prod.mk.injEq] at h
    rcases h with ((((((⟨hraw, -, rfl⟩ | ⟨hraw, -, rfl⟩) | ⟨hraw, -, rfl⟩)
      | ⟨hraw, -, rfl⟩) | ⟨hraw, -, rfl⟩) | ⟨hraw, -, rfl⟩) | ⟨hraw, -, rfl⟩)
      | ⟨hraw, -, rfl⟩
    · simpa [List.map_eq_nil_iff] using hraw
    · exact hraw
    · exact hraw
    · exact hraw
    · simpa [List.map_eq_nil_iff] using hraw
    · simpa [List.dedup_eq_nil] using hraw
    · simpa [List.dedup_eq_nil] using hraw
    · simpa [List.dedup_eq_nil] using hraw
  · refine ⟨?_, ?_, ?_, ?_, ?_, ?_, ?_, ?_⟩ <;>
      simp [detect_pii, List.mem_append, exists_mem_entry_iff]

theorem claim_C3_witness : (["7"] : List String) ≠ [] :=
  (claim_C3_presence_iff "Age: 7").1 "age" ["7"] (by decide)

/-- Claim C6: the dates, long_numbers and phone categories carry each
matched string exactly once (a duplicate-free list with the same members
as the raw matches), while the patient_name, ipd_no, uhid, age and sex
categories store the raw matches in first-seen order, duplicates kept
(witnessed concretely for a duplicated age). -/
theorem claim_C6_multiplicity (text : String) :
    (∀ vs, ("dates", vs) ∈ detect_pii text →
      vs.Nodup ∧ ∀ s, s ∈ vs ↔ s ∈ rawDates text)
    ∧ (∀ vs, ("long_numbers", vs) ∈ detect_pii text →
      vs.Nodup ∧ ∀ s, s ∈ vs ↔ s ∈ rawLongNumbers text)
    ∧ (∀ vs, ("phone", vs) ∈ detect_pii text →
      vs.Nodup ∧ ∀ s, s ∈ vs ↔ s ∈ rawPhone text)
    ∧ (∀ vs, ("patient_name", vs) ∈ detect_pii text →
      vs = (rawPatientName text).map pyStrip)
    ∧ (∀ vs, ("ipd_no", vs) ∈ detect_pii text → vs = rawIpd text)
    ∧ (∀ vs, ("uhid", vs) ∈ detect_pii text → vs = rawUhid text)
    ∧ (∀ vs, ("age", vs) ∈ detect_pii text → vs = rawAge text)
    ∧ (∀ vs, ("sex", vs) ∈ detect_pii text →
      vs = (rawSex text).map pyUpper)
    ∧ (detect_pii "Age: 34 Age: 34").lookup "age" = some ["34", "34"] := by
  refine ⟨?_, ?_, ?_, ?_, ?_, ?_, ?_, ?_, by decide⟩ <;>
    intro vs h <;>
    simp only [detect_pii, List.mem_append, mem_entry_iff, Prod.mk.injEq] at h <;>
    simp at h
  · obtain ⟨hraw, rfl⟩ := h
    exact ⟨List.nodup_dedup _, fun s => List.mem_dedup⟩
  · obtain ⟨hraw, rfl⟩ := h
    exact ⟨List.nodup_dedup _, fun s => List.mem_dedup⟩
  · obtain ⟨hraw, rfl⟩ := h
    exact ⟨List.nodup_dedup _, fun s => List.mem_dedup⟩
  · exact h.2
  · exact h.2
  · exact h.2
  · exact h.2
  · exact h.2

theorem claim_C6_witness :
    List.Nodup ["11/11/25"]
      ∧ ("11/11/25" ∈ (["11/11/25"] : List String)
          ↔ "11/11/25" ∈ rawDates "11/11/25 and 11/11/25") := by
  have h := (claim_C6_multiplicity "11/11/25 and 11/11/25").1 ["11/11/25"] (by decide)
  exact ⟨h.1, h.2 "11/11/25"⟩

/-- Claim C2 counterexample: the sex rule does not match its label
case-insensitively — the pattern at try.py:104 is compiled without
`re.IGNORECASE`, so the texts "SEX: M" and "sex: f" yield no sex match at
all, contrary to the claim. -/
theorem claim_C2_counterexample :
    rawSex "SEX: M" = [] ∧ rawSex "sex: f" = []
      ∧ detect_pii "SEX: M" = [] ∧ detect_pii "sex: f" = [] := by decide

/-- Claim C2 (amended): the sex rule matches its label only in the exact
form "Sex" (so "SEX: M" and "sex: f" yield no match while "Sex: m" and
"Sex- F" do), the captured letter may be M or F of either case, and every
stored sex value is normalized to uppercase "M" or "F"; the other label
rules do match case-insensitively. -/
theorem claim_C2_sex_case (text : String) :
    (∀ vs, ("sex", vs) ∈ detect_pii text → ∀ s ∈ vs, s = "M" ∨ s = "F")
    ∧ rawSex "Sex: m" = ["m"]
    ∧ (detect_pii "Sex: m").lookup "sex" = some ["M"]
    ∧ rawSex "Sex- F" = ["F"]
    ∧ rawSex "SEX: M" = []
    ∧ rawSex "sex: f" = []
    ∧ rawAge "AGE: 34" = ["34"]
    ∧ rawPatientName "PATIENT NAME: Bo" = ["Bo"]
    ∧ rawIpd "ipd no: 77" = ["77"]
    ∧ rawUhid "uhid no: X9" = ["X9"] := by
  refine ⟨?_, by decide, by decide, by decide, by decide, by decide, by decide,
    by decide, by decide, by decide⟩
  intro vs h s hs
  simp only [detect_pii, List.mem_append, mem_entry_iff, Prod.mk.injEq] at h
  simp at h
  obtain ⟨hraw, rfl⟩ := h
  simp only [List.mem_map] at hs
  obtain ⟨r, hr, rfl⟩ := hs
  rcases rawSex_mem text r hr with rfl | rfl | rfl | rfl
  · exact Or.inl (by decide)
  · exact Or.inr (by decide)
  · exact Or.inl (by decide)
  · exact Or.inr (by decide)

theorem claim_C2_witness : ("M" : String) = "M" ∨ ("M" : String) = "F" :=
  (claim_C2_sex_case "Sex: m").1 ["M"] (by decide) "M" (by decide)

/-- Claim C4: when no extraction rule matches, the detection map is
empty, the token set derived from it is empty, and redacting any image
with that empty token set returns the image unchanged. -/
theorem claim_C4_no_pii (text : String)
    (h : rawPatientName text = [] ∧ rawIpd text = [] ∧ rawUhid text = []
      ∧ rawAge text = [] ∧ rawSex text = [] ∧ rawDates text = []
      ∧ rawLongNumbers text = [] ∧ rawPhone text = []) :
    detect_pii text = []
    ∧ build_pii_token_set (detect_pii text) = []
    ∧ ∀ (img : Image) (words : List Word),
        redact_image img words (build_pii_token_set (detect_pii text)) = img := by
  obtain ⟨h1, h2, h3, h4, h5, h6, h7, h8⟩ := h
  have hd : detect_pii text = [] := by
    simp [detect_pii, entry, h1, h2, h3, h4, h5, h6, h7, h8]
  have hb : build_pii_token_set (detect_pii text) = [] := by
    rw [hd]
    rfl
  refine ⟨hd, hb, ?_⟩
  intro img words
  rw [hb]
  exact redact_image_empty_tokens words img

theorem claim_C4_witness :
    detect_pii "hello world" = []
    ∧ build_pii_token_set (detect_pii "hello world") = []
    ∧ redact_image [[(9, 9, 9)], [(1, 2, 3)]] [⟨"hello", some 95, ⟨0, 0, 3, 1⟩⟩]
        (build_pii_token_set (detect_pii "hello world")) = [[(9, 9, 9)], [(1, 2, 3)]] := by
  have h := claim_C4_no_pii "hello world" (by decide)
  exact ⟨h.1, h.2.1, h.2.2 [[(9, 9, 9)], [(1, 2, 3)]] [⟨"hello", some 95, ⟨0, 0, 3, 1⟩⟩]⟩

theorem bft_eq_assembleSpec : ∀ texts : List String,
    build_full_text texts = assembleSpec texts := by
  intro texts
  induction texts with
  | nil => rfl
  | cons w ws ih =>
    by_cases hw : pyStrip w = ""
    · have h1 : build_full_text (w :: ws) = build_full_text ws := by
        simp [build_full_text, List.filter_cons, hw]
      rw [h1, ih]
      simp [assembleSpec, hw]
    · have hfil : List.filter (fun u => pyStrip u != "") (w :: ws)
          = w :: List.filter (fun u => pyStrip u != "") ws := by
        simp [List.filter_cons, hw]
      by_cases hall : ∀ u ∈ ws, pyStrip u = ""
      · have hnil : List.filter (fun u => pyStrip u != "") ws = [] := by
          rw [List.filter_eq_nil_iff]
          intro u hu
          simp [hall u hu]
        have h1 : build_full_text (w :: ws) = w := by
          simp [build_full_text, hfil, hnil, pyJoin]
        have hallb : (ws.all fun u => pyStrip u == "") = true := by
          rw [List.all_eq_true]
          intro u hu
          simp [hall u hu]
        rw [h1]
        simp [assembleSpec, hw, hallb]
      · have hx : ∃ u ∈ ws, pyStrip u ≠ "" := by
          push_neg at hall
          exact hall
        have hne : List.filter (fun u => pyStrip u != "") ws ≠ [] := by
          intro hcon
          rw [List.filter_eq_nil_iff] at hcon
          obtain ⟨u, hu, hu2⟩ := hx
          exact hu2 (by simpa using hcon u hu)
        have hallb : (ws.all fun u => pyStrip u == "") = false := by
          obtain ⟨u, hu, hu2⟩ := hx
          cases hb : ws.all fun u2 => pyStrip u2 == "" with
          | false => rfl
          | true => exact absurd (by simpa using List.all_eq_true.mp hb u hu) hu2
        obtain ⟨a, as, has⟩ : ∃ a as,
            List.filter (fun u => pyStrip u != "") ws = a :: as := by
          cases hfe : List.filter (fun u => pyStrip u != "") ws with
          | nil => exact absurd hfe hne
          | cons a as => exact ⟨a, as, rfl⟩
        have h1 : build_full_text (w :: ws) = w ++ " " ++ build_full_text ws := by
          simp [build_full_text, hfil, has, pyJoin]
        rw [h1, ih]
        simp [assembleSpec, hw, hallb]

/-- Claim C5: the text assembler returns exactly the words of non-empty
stripped text, joined by single spaces in original order (the spec-side
recursion `assembleSpec`), and an all-blank word sequence yields the
empty string. -/
theorem claim_C5_assembler (words : List Word) :
    build_full_text (words.map Word.text) = assembleSpec (words.map Word.text)
    ∧ ((∀ w ∈ words, pyStrip w.text = "") →
        build_full_text (words.map Word.text) = "") := by
  refine ⟨bft_eq_assembleSpec (words.map Word.text), ?_⟩
  intro hall
  have hnil : List.filter (fun u => pyStrip u != "") (words.map Word.text) = [] := by
    rw [List.filter_eq_nil_iff]
    intro u hu
    obtain ⟨w, hw, rfl⟩ := List.mem_map.mp hu
    simp [hall w hw]
  simp [build_full_text, hnil, pyJoin]

theorem claim_C5_witness :
    build_full_text (([⟨"  ", some 10, ⟨0, 0, 1, 1⟩⟩,
        ⟨"", none, ⟨0, 0, 1, 1⟩⟩] : List Word).map Word.text) = "" :=
  (claim_C5_assembler [⟨"  ", some 10, ⟨0, 0, 1, 1⟩⟩, ⟨"", none, ⟨0, 0, 1, 1⟩⟩]).2
    (by decide)

/-- Claim C10: a word with punctuation between its alphanumeric runs is
compared against the token set as the single concatenation of the runs:
for the token set built from "Patient Name: John Doe" (which contains
"john" and "doe"), the word "John-Doe" at confidence 90 has runs "John"
and "Doe" that are each in the set, yet its cleaned form "johndoe" is
not, so the word does not qualify and its box is not filled, while the
single-run word "John" does qualify. -/
theorem claim_C10_concatenated_runs :
    "john" ∈ build_pii_token_set (detect_pii "Patient Name: John Doe")
    ∧ "doe" ∈ build_pii_token_set (detect_pii "Patient Name: John Doe")
    ∧ wordRuns "John-Doe".toList = ["John", "Doe"]
    ∧ pyLower "John" ∈ build_pii_token_set (detect_pii "Patient Name: John Doe")
    ∧ pyLower "Doe" ∈ build_pii_token_set (detect_pii "Patient Name: John Doe")
    ∧ cleanWord "John-Doe" = "johndoe"
    ∧ ("johndoe" ∈ build_pii_token_set (detect_pii "Patient Name: John Doe")) = False
    ∧ qualifies (build_pii_token_set (detect_pii "Patient Name: John Doe"))
        ⟨"John-Doe", some 90, ⟨0, 0, 4, 2⟩⟩ = false
    ∧ qualifies (build_pii_token_set (detect_pii "Patient Name: John Doe"))
        ⟨"John", some 90, ⟨0, 0, 4, 2⟩⟩ = true
    ∧ redact_image [[(7, 7, 7)]] [⟨"John-Doe", some 90, ⟨0, 0, 4, 2⟩⟩]
        (build_pii_token_set (detect_pii "Patient Name: John Doe")) = [[(7, 7, 7)]] := by
  decide
